import Mathlib

/-!
Verification of the reversible anonymization core of `sanitization.py`:
the instance-counter anonymizer and deanonymizer operators, the mapping
persistence snapshot, and the anonymize/deanonymize ticket pipeline.

Python strings are embedded as lists of characters (`Str`).  Entity
confidence scores are embedded as rationals: the source only ever compares
scores with `>=`, it never performs arithmetic on them.  Python dictionaries
are embedded as association lists in insertion order (Python dictionaries
preserve insertion order; assignment to an existing key keeps its position,
assignment to a fresh key appends it at the end).
-/

/-- Characters of a Python string. -/
abbrev Str := List Char

/-- Python `value.split(sep)` for a one-character separator: split at every
occurrence of the separator, keeping empty segments. -/
def pySplit (sep : Char) : Str → List Str
  | [] => [[]]
  | c :: cs =>
    if c = sep then [] :: pySplit sep cs
    else
      match pySplit sep cs with
      | [] => [[c]]
      | s :: ss => (c :: s) :: ss

/-- Accumulator loop for decimal digit parsing; `none` on a non-digit. -/
def parseDigitsAux : Str → Nat → Option Nat
  | [], acc => some acc
  | c :: cs, acc => if c.isDigit then parseDigitsAux cs (10 * acc + (c.toNat - 48)) else none

/-- Parse a non-empty all-digit string. -/
def parseDigits : Str → Option Nat
  | [] => none
  | c :: cs => parseDigitsAux (c :: cs) 0

/-- Python `int(s)` on the strings arising here: an optional sign followed by
one or more decimal digits; `none` models the `ValueError` raised otherwise. -/
def pyInt? : Str → Option Int
  | [] => none
  | c :: cs =>
    if c = '-' then (parseDigits cs).map fun n => -(n : Int)
    else if c = '+' then (parseDigits cs).map fun n => (n : Int)
    else (parseDigits (c :: cs)).map fun n => (n : Int)

/-- Python `str(n)` for a natural number: decimal digits, no leading zeros. -/
def natToChars (n : Nat) : Str :=
  if n = 0 then ['0'] else (Nat.digits 10 n).reverse.map Nat.digitChar

/-- Python `str(i)` for an integer. -/
def intToChars (i : Int) : Str :=
  if i < 0 then '-' :: natToChars i.natAbs else natToChars i.toNat

/-- `InstanceCounterAnonymizer.REPLACING_FORMAT = "<{entity_type}_{index}>"`,
applied to an entity type and an already-rendered index. -/
def REPLACING_FORMAT (entity_type index : Str) : Str :=
  '<' :: entity_type ++ '_' :: index ++ ['>']

/-- The per-entity-type inner dictionary: original value → token. -/
abbrev TypeMap := List (Str × Str)

/-- The entity mapping: entity type → (original value → token). -/
abbrev EntityMapping := List (Str × TypeMap)

/-- Python dictionary lookup (`d.get(k)` / `k in d` / `d[k]`). -/
def alookup {α : Type} (k : Str) : List (Str × α) → Option α
  | [] => none
  | p :: rest => if p.1 = k then some p.2 else alookup k rest

/-- Python `entity_mapping[entity_type] = m`: update in place when the key
exists (keeping its position), otherwise append the new key at the end. -/
def setType (em : EntityMapping) (T : Str) (m : TypeMap) : EntityMapping :=
  if (alookup T em).isSome then em.map fun p => if p.1 = T then (T, m) else p
  else em ++ [(T, m)]

/-- `get_index` inside `InstanceCounterAnonymizer._get_last_index`:
`int(value.split("_")[-1][:-1])`. -/
def get_index (value : Str) : Option Int :=
  pyInt? ((pySplit '_' value).getLastD []).dropLast

/-- `InstanceCounterAnonymizer._get_last_index`: parse the numeric suffix of
every stored token and return the maximum, or `-1` when there are none;
`none` models the `ValueError` a failing `int()` raises. -/
def _get_last_index (entity_mapping_for_type : TypeMap) : Option Int :=
  match (entity_mapping_for_type.map Prod.snd).mapM get_index with
  | none => none
  | some [] => some (-1)
  | some (i :: is) => some (is.foldl max i)

/-- `InstanceCounterAnonymizer.operate`.  The `params` dictionary is embedded
as the two explicit arguments that `validate` requires.  The first two cases
embed Python's `if not entity_mapping_for_type` (absent key, or present but
empty dictionary, both falsy). -/
def InstanceCounterAnonymizer.operate (entity_type text : Str)
    (entity_mapping : EntityMapping) : Option (Str × EntityMapping) :=
  match alookup entity_type entity_mapping with
  | none =>
    let new_text := REPLACING_FORMAT entity_type (intToChars 0)
    some (new_text, setType entity_mapping entity_type [(text, new_text)])
  | some entity_mapping_for_type =>
    if entity_mapping_for_type = [] then
      let new_text := REPLACING_FORMAT entity_type (intToChars 0)
      some (new_text, setType entity_mapping entity_type [(text, new_text)])
    else
      match alookup text entity_mapping_for_type with
      | some tok => some (tok, entity_mapping)
      | none =>
        match _get_last_index entity_mapping_for_type with
        | none => none
        | some previous_index =>
          let new_text := REPLACING_FORMAT entity_type (intToChars (previous_index + 1))
          some (new_text,
            setType entity_mapping entity_type
              (entity_mapping_for_type ++ [(text, new_text)]))

/-- The two deanonymization failures.  The source raises `ValueError` at two
distinct sites; the spec names them `UnknownEntityTypeError` (carrying the
entity type) and `UnknownTokenError` (carrying the literal token and the
entity type), which is exactly the data in the two messages. -/
inductive DeanonError
  | unknownEntityType (entity_type : Str)
  | unknownToken (text entity_type : Str)
deriving DecidableEq

/-- `InstanceCounterDeanonymizer._find_key_by_value`: first key whose value
equals `value`, `None` when there is none. -/
def InstanceCounterDeanonymizer._find_key_by_value (entity_mapping : TypeMap)
    (value : Str) : Option Str :=
  match entity_mapping with
  | [] => none
  | p :: rest =>
    if p.2 = value then some p.1
    else InstanceCounterDeanonymizer._find_key_by_value rest value

/-- `InstanceCounterDeanonymizer.operate`: check the entity type is a key of
the mapping, check the token is among the stored values for that type,
then return the key found by value. -/
def InstanceCounterDeanonymizer.operate (entity_type text : Str)
    (entity_mapping : EntityMapping) : Except DeanonError (Option Str) :=
  match alookup entity_type entity_mapping with
  | none => .error (.unknownEntityType entity_type)
  | some mt =>
    if text ∈ mt.map Prod.snd then
      .ok (InstanceCounterDeanonymizer._find_key_by_value mt text)
    else .error (.unknownToken text entity_type)

/-- A detected PII span as returned by the external analyzer. -/
structure Span where
  entity_type : Str
  start : Nat
  stop : Nat
  score : ℚ
deriving DecidableEq

/-- A substitution record of the anonymized document: entity type plus the
token's bounds in the anonymized text. -/
structure Item where
  entity_type : Str
  start : Nat
  stop : Nat
deriving DecidableEq

/-- Python `text[a:b]` for `0 ≤ a ≤ b`. -/
def extract (text : Str) (a b : Nat) : Str :=
  (text.drop a).take (b - a)

/-- Modelled from the spec: the anonymizer engine (`AnonymizerEngine`, an
external collaborator) applies, for each surviving span ordered by document
position, the configured operator to `text[start:stop]` and substitutes the
returned token, keeping offsets of later replacements valid (§4.2 step 3);
it returns the output text together with the ordered substitution records in
output coordinates (§3, AnonymizedDocument).  `pos` is the start of the
not-yet-emitted remainder of the document. -/
def anonymizeFrom (text : Str) (pos : Nat) (spans : List Span)
    (em : EntityMapping) : Option (Str × List Item × EntityMapping) :=
  match spans with
  | [] => some (text.drop pos, [], em)
  | s :: rest =>
    match InstanceCounterAnonymizer.operate s.entity_type
        (extract text s.start s.stop) em with
    | none => none
    | some (tok, em₁) =>
      match anonymizeFrom text s.stop rest em₁ with
      | none => none
      | some (tailText, tailItems, em₂) =>
        let gap := extract text pos s.start
        some (gap ++ tok ++ tailText,
          ⟨s.entity_type, gap.length, gap.length + tok.length⟩ ::
            tailItems.map (fun it =>
              ⟨it.entity_type, it.start + (gap.length + tok.length),
                it.stop + (gap.length + tok.length)⟩),
          em₂)

/-- Modelled from the spec: the deanonymizer engine (`DeanonymizeEngine`, an
external collaborator) replays the substitution records over the anonymized
text: for each record it extracts the token text, applies the deanonymize
operator (reverse lookup), and substitutes the original value back (§4.3). -/
def deanonFrom (text : Str) (pos : Nat) (items : List Item)
    (em : EntityMapping) : Except DeanonError Str :=
  match items with
  | [] => .ok (text.drop pos)
  | it :: rest =>
    match InstanceCounterDeanonymizer.operate it.entity_type
        (extract text it.start it.stop) em with
    | .error e => .error e
    | .ok v =>
      match deanonFrom text it.stop rest em with
      | .error e => .error e
      | .ok tail => .ok (extract text pos it.start ++ v.getD [] ++ tail)

/-- The anonymized-result object: output text plus substitution records. -/
structure AnonymizedResult where
  text : Str
  items : List Item
deriving DecidableEq

/-- `anonymize_ticket`, with the external analyzer's output as a parameter
(detection is an external collaborator): filter the detected spans by the
confidence threshold (source line 252), run the anonymizer engine with the
instance-counter operator starting from an empty mapping, and return the
result together with the mapping and the unfiltered detection list. -/
def anonymize_ticket (ticket_text : Str) (all_analysis_results : List Span)
    (min_score_threshold : ℚ) :
    Option (AnonymizedResult × EntityMapping × List Span) :=
  let analysis_results :=
    all_analysis_results.filter fun s => min_score_threshold ≤ s.score
  match anonymizeFrom ticket_text 0 analysis_results [] with
  | none => none
  | some (out, items, em) => some (⟨out, items⟩, em, all_analysis_results)

/-- The engine result object returned by the deanonymizer engine. -/
structure EngineResult where
  text : Str
deriving DecidableEq

/-- The two result shapes of `deanonymize_ticket`: a plain string from the
early empty-mapping return, or an engine result object with a `text` field. -/
inductive DeanonReturn
  | plainText (s : Str)
  | engineResult (r : EngineResult)
deriving DecidableEq

/-- `deanonymize_ticket`: with an empty (falsy) mapping, return the
anonymized text unchanged as a plain string; otherwise run the deanonymizer
engine over the substitution records and return its result object. -/
def deanonymize_ticket (anonymized_result : AnonymizedResult)
    (anonymized_mapping : EntityMapping) : Except DeanonError DeanonReturn :=
  if anonymized_mapping = [] then .ok (.plainText anonymized_result.text)
  else
    match deanonFrom anonymized_result.text 0 anonymized_result.items
        anonymized_mapping with
    | .error e => .error e
    | .ok t => .ok (.engineResult ⟨t⟩)

/-- One entry of the `analyzed_entities` list of the persisted mapping file. -/
structure AnalyzedEntity where
  entity_type : Str
  entity_text : Str
  score : ℚ
deriving DecidableEq

/-- The `metadata` object of the persisted mapping file. -/
structure SavedMetadata where
  min_score_threshold : ℚ
  total_entities_detected : Nat
  entities_above_threshold : Nat
deriving DecidableEq

/-- The JSON-serializable `output_data` written by `save_entity_mapping`. -/
structure SavedData where
  mappings : EntityMapping
  analyzed_entities : List AnalyzedEntity
  metadata : SavedMetadata
deriving DecidableEq

/-- The data `save_entity_mapping` serializes: the mapping copied verbatim,
`total_entities_detected = len(analyzed_entities) if analyzed_entities else 0`,
and — only when both the entity list and the original text are truthy — the
entries with `score >= min_score_threshold` and their count. -/
def save_entity_mapping (mapping : EntityMapping) (analyzed_entities : List Span)
    (original_text : Str) (min_score_threshold : ℚ) : SavedData :=
  let base : SavedData :=
    { mappings := mapping
      analyzed_entities := []
      metadata :=
        { min_score_threshold := min_score_threshold
          total_entities_detected :=
            if analyzed_entities = [] then 0 else analyzed_entities.length
          entities_above_threshold := 0 } }
  if analyzed_entities ≠ [] ∧ original_text ≠ [] then
    let included :=
      analyzed_entities.filter fun e => min_score_threshold ≤ e.score
    { base with
      analyzed_entities := included.map fun e =>
        ⟨e.entity_type, extract original_text e.start e.stop, e.score⟩
      metadata := { base.metadata with
        entities_above_threshold := included.length } }
  else base

/-- A sequence of assignment calls (entity type, original value) replayed
through `InstanceCounterAnonymizer.operate`, threading the mapping. -/
def runCalls : List (Str × Str) → EntityMapping → Option EntityMapping
  | [], em => some em
  | (t, v) :: rest, em =>
    match InstanceCounterAnonymizer.operate t v em with
    | none => none
    | some (_, em') => runCalls rest em'

/-- The entity types requested by `anonymize_ticket` before custom additions
(source line 238). -/
def standard_entity_types : List Str :=
  [['P','E','R','S','O','N'],
   ['P','H','O','N','E','_','N','U','M','B','E','R'],
   ['E','M','A','I','L','_','A','D','D','R','E','S','S'],
   ['U','R','L'],
   ['I','P','_','A','D','D','R','E','S','S']]

/-- A well-formed per-type dictionary: the stored original values are
pairwise distinct and the stored tokens are, in insertion order, exactly the
formatted tokens with indices `0, 1, ..., length-1`. -/
def typeWF (T : Str) (mt : TypeMap) : Prop :=
  (mt.map Prod.fst).Nodup ∧
    mt.map Prod.snd =
      (List.range mt.length).map fun i => REPLACING_FORMAT T (natToChars i)

/-- A well-formed entity mapping: distinct entity-type keys, and every
stored per-type dictionary is non-empty and well-formed. -/
def mappingWF (em : EntityMapping) : Prop :=
  (em.map Prod.fst).Nodup ∧ ∀ p ∈ em, p.2 ≠ [] ∧ typeWF p.1 p.2

/-- Prefix extension of entity mappings: every stored per-type dictionary
persists, possibly extended at the end. -/
def mapLE (em em' : EntityMapping) : Prop :=
  ∀ T mt, alookup T em = some mt → ∃ ext, alookup T em' = some (mt ++ ext)

/-- The spans handed to the anonymizer engine are ordered by document
position and pairwise non-overlapping: each span starts no earlier than the
current position and the next span starts no earlier than this one ends. -/
def spansOK : Nat → List Span → Prop
  | _, [] => True
  | pos, s :: rest => pos ≤ s.start ∧ s.start ≤ s.stop ∧ spansOK s.stop rest

/-- A concrete two-span example document used by concrete evaluations:
`"ab cd"` with a full-confidence span over `"ab"` and a zero-confidence
span over `"cd"`. -/
def exText : Str := ['a', 'b', ' ', 'c', 'd']

/-- The example's detected spans. -/
def exSpans : List Span := [⟨['A'], 0, 2, 1⟩, ⟨['B'], 3, 5, 0⟩]

/-! ### Splitting and integer-rendering lemmas -/

theorem pySplit_ne_nil (sep : Char) (l : Str) : pySplit sep l ≠ [] := by
  cases l with
  | nil => simp [pySplit]
  | cons c cs =>
    rw [pySplit]
    split
    · exact List.cons_ne_nil _ _
    · split
      · exact List.cons_ne_nil _ _
      · exact List.cons_ne_nil _ _

theorem pySplit_append (sep : Char) (s t : Str) :
    pySplit sep (s ++ sep :: t) = pySplit sep s ++ pySplit sep t := by
  induction s with
  | nil => simp [pySplit]
  | cons c cs ih =>
    by_cases hc : c = sep
    · subst hc
      rw [List.cons_append, pySplit, if_pos rfl, ih, pySplit, if_pos rfl]
      simp
    · rw [List.cons_append, pySplit, if_neg hc, ih, pySplit, if_neg hc]
      rcases h : pySplit sep cs with _ | ⟨s0, ss⟩
      · exact absurd h (pySplit_ne_nil sep cs)
      · simp

theorem pySplit_not_mem (sep : Char) (t : Str) (h : sep ∉ t) : pySplit sep t = [t] := by
  induction t with
  | nil => simp [pySplit]
  | cons c cs ih =>
    rw [pySplit, if_neg (fun he => h (by rw [← he]; exact List.mem_cons_self c cs)),
      ih (fun hm => h (List.mem_cons_of_mem _ hm))]

theorem digitChar_spec (d : Nat) (hd : d < 10) :
    (Nat.digitChar d).isDigit = true ∧ (Nat.digitChar d).toNat - 48 = d ∧
      Nat.digitChar d ≠ '_' ∧ Nat.digitChar d ≠ '-' ∧ Nat.digitChar d ≠ '+' ∧
      Nat.digitChar d ≠ '<' ∧ Nat.digitChar d ≠ '>' ∧
      (Nat.digitChar d = '0' → d = 0) := by
  interval_cases d <;> decide

theorem parseDigitsAux_digits (ds : List Nat) (h : ∀ d ∈ ds, d < 10) (acc : Nat) :
    parseDigitsAux (ds.map Nat.digitChar) acc =
      some (ds.foldl (fun a d => 10 * a + d) acc) := by
  induction ds generalizing acc with
  | nil => simp [parseDigitsAux]
  | cons d ds ih =>
    have hd := h d (List.mem_cons_self _ _)
    rw [List.map_cons, parseDigitsAux, if_pos (digitChar_spec d hd).1,
      (digitChar_spec d hd).2.1, ih (fun x hx => h x (List.mem_cons_of_mem _ hx)),
      List.foldl_cons]

theorem foldl_reverse_ofDigits (L : List Nat) (acc : Nat) :
    L.reverse.foldl (fun a d => 10 * a + d) acc =
      acc * 10 ^ L.length + Nat.ofDigits 10 L := by
  induction L generalizing acc with
  | nil => simp
  | cons d L ih =>
    rw [List.reverse_cons, List.foldl_append, ih]
    simp only [List.foldl_cons, List.foldl_nil, List.length_cons, Nat.ofDigits_cons]
    ring_nf

theorem parseDigits_of_ne_nil (cs : Str) (h : cs ≠ []) :
    parseDigits cs = parseDigitsAux cs 0 := by
  cases cs with
  | nil => exact absurd rfl h
  | cons c cs => rfl

theorem natToChars_ne_nil (n : Nat) : natToChars n ≠ [] := by
  rw [natToChars]
  split
  · exact List.cons_ne_nil _ _
  · next hn =>
    simp only [ne_eq, List.map_eq_nil_iff, List.reverse_eq_nil_iff]
    exact Nat.digits_ne_nil_iff_ne_zero.mpr hn

theorem natToChars_digits (n : Nat) : ∀ c ∈ natToChars n, c.isDigit = true := by
  intro c hc
  rw [natToChars] at hc
  split at hc
  · rw [List.mem_singleton] at hc
    subst hc
    decide
  · obtain ⟨d, hd, rfl⟩ := List.mem_map.mp hc
    exact (digitChar_spec d (Nat.digits_lt_base (by norm_num)
      (List.mem_reverse.mp hd))).1

theorem parseDigits_natToChars (n : Nat) : parseDigits (natToChars n) = some n := by
  rcases Nat.eq_zero_or_pos n with rfl | hn
  · decide
  · rw [natToChars, if_neg hn.ne']
    have hlt : ∀ d ∈ (Nat.digits 10 n).reverse, d < 10 := fun d hd =>
      Nat.digits_lt_base (by norm_num) (List.mem_reverse.mp hd)
    rw [parseDigits_of_ne_nil _ (by
      simp only [ne_eq, List.map_eq_nil_iff, List.reverse_eq_nil_iff]
      exact Nat.digits_ne_nil_iff_ne_zero.mpr hn.ne'),
      parseDigitsAux_digits _ hlt 0, foldl_reverse_ofDigits]
    simp [Nat.ofDigits_digits]

theorem pyInt?_natToChars (n : Nat) : pyInt? (natToChars n) = some (n : Int) := by
  rcases h : natToChars n with _ | ⟨c, cs⟩
  · exact absurd h (natToChars_ne_nil n)
  · have hc : c.isDigit = true := natToChars_digits n c (h ▸ List.mem_cons_self c cs)
    rw [pyInt?, if_neg (fun he => by rw [he] at hc; exact absurd hc (by decide)),
      if_neg (fun he => by rw [he] at hc; exact absurd hc (by decide)), ← h,
      parseDigits_natToChars]
    rfl

theorem natToChars_not_underscore (n : Nat) : '_' ∉ natToChars n := fun hm => by
  have := natToChars_digits n '_' hm
  exact absurd this (by decide)

theorem get_index_format (T idx : Str) (h : '_' ∉ idx) :
    get_index (REPLACING_FORMAT T idx) = pyInt? idx := by
  have hsh : REPLACING_FORMAT T idx = ('<' :: T) ++ '_' :: (idx ++ ['>']) := by
    simp [REPLACING_FORMAT]
  have hnm : '_' ∉ idx ++ ['>'] := by
    intro hm
    rcases List.mem_append.mp hm with hm | hm
    · exact h hm
    · simp at hm
  rw [get_index, hsh, pySplit_append, pySplit_not_mem _ _ hnm,
    List.getLastD_concat, List.dropLast_concat]

theorem get_index_fmtNat (T : Str) (n : Nat) :
    get_index (REPLACING_FORMAT T (natToChars n)) = some (n : Int) := by
  rw [get_index_format T _ (natToChars_not_underscore n), pyInt?_natToChars]

theorem intToChars_ofNat (n : Nat) : intToChars (n : Int) = natToChars n := by
  rw [intToChars, if_neg (by omega)]
  simp

theorem get_index_fmtInt (T : Str) (i : Int) :
    get_index (REPLACING_FORMAT T (intToChars i)) = some i := by
  rcases lt_or_le i 0 with hi | hi
  · rw [intToChars, if_pos hi]
    have hm : '_' ∉ '-' :: natToChars i.natAbs := by
      intro hmem
      rcases List.mem_cons.mp hmem with he | hmem
      · exact absurd he (by decide)
      · exact natToChars_not_underscore _ hmem
    rw [get_index_format T _ hm]
    have hp : pyInt? ('-' :: natToChars i.natAbs) = some (-(i.natAbs : Int)) := by
      simp [pyInt?, parseDigits_natToChars]
    rw [hp]
    congr 1
    omega
  · rw [intToChars, if_neg (by omega), get_index_fmtNat]
    congr 1
    omega

theorem fmtNat_index_inj (T : Str) {m n : Nat}
    (h : REPLACING_FORMAT T (natToChars m) = REPLACING_FORMAT T (natToChars n)) :
    m = n := by
  have hm := get_index_fmtNat T m
  rw [h, get_index_fmtNat] at hm
  exact_mod_cast (Option.some_inj.mp hm).symm

/-! ### Association list and mapping-update lemmas -/

theorem alookup_eq_none {α : Type} (k : Str) (l : List (Str × α)) :
    alookup k l = none ↔ k ∉ l.map Prod.fst := by
  induction l with
  | nil => exact ⟨fun _ h => List.not_mem_nil k h, fun _ => rfl⟩
  | cons p rest ih =>
    rw [List.map_cons, alookup]
    by_cases hp : p.1 = k
    · rw [if_pos hp]
      constructor
      · intro h
        exact absurd h (by simp)
      · intro h
        exact absurd (List.mem_cons.mpr (Or.inl hp.symm)) h
    · rw [if_neg hp, ih]
      constructor
      · intro h hmem
        rcases List.mem_cons.mp hmem with hmem | hmem
        · exact hp hmem.symm
        · exact h hmem
      · intro h hmem
        exact h (List.mem_cons.mpr (Or.inr hmem))

theorem alookup_mem {α : Type} {k : Str} {l : List (Str × α)} {v : α}
    (h : alookup k l = some v) : (k, v) ∈ l := by
  induction l with
  | nil => exact absurd h (by simp [alookup])
  | cons p rest ih =>
    rw [alookup] at h
    split at h
    · next hp =>
      obtain rfl := Option.some_inj.mp h
      subst hp
      rw [Prod.mk.eta]
      exact List.mem_cons_self p rest
    · exact List.mem_cons_of_mem _ (ih h)

theorem alookup_append_some {α : Type} (k : Str) (l₁ l₂ : List (Str × α)) (v : α)
    (h : alookup k l₁ = some v) : alookup k (l₁ ++ l₂) = some v := by
  induction l₁ with
  | nil => exact absurd h (by simp [alookup])
  | cons p rest ih =>
    rw [alookup] at h
    rw [List.cons_append, alookup]
    split at h
    · next hp => rw [if_pos hp]; exact h
    · next hp => rw [if_neg hp]; exact ih h

theorem alookup_append_none {α : Type} (k : Str) (l₁ l₂ : List (Str × α))
    (h : alookup k l₁ = none) : alookup k (l₁ ++ l₂) = alookup k l₂ := by
  induction l₁ with
  | nil => simp
  | cons p rest ih =>
    rw [alookup] at h
    rw [List.cons_append, alookup]
    split at h
    · exact absurd h (by simp)
    · next hp => rw [if_neg hp]; exact ih h

theorem alookup_mapUpdate_self (l : EntityMapping) (T : Str) (m : TypeMap)
    (h : (alookup T l).isSome) :
    alookup T (l.map fun p => if p.1 = T then (T, m) else p) = some m := by
  induction l with
  | nil => exact absurd h (by simp [alookup])
  | cons p rest ih =>
    rw [alookup] at h
    rw [List.map_cons]
    by_cases hp : p.1 = T
    · rw [if_pos hp, alookup, if_pos rfl]
    · rw [if_neg hp, alookup, if_neg hp]
      apply ih
      rwa [if_neg hp] at h

theorem alookup_mapUpdate_ne (l : EntityMapping) (T T' : Str) (m : TypeMap)
    (h : T' ≠ T) :
    alookup T' (l.map fun p => if p.1 = T then (T, m) else p) = alookup T' l := by
  induction l with
  | nil => rfl
  | cons p rest ih =>
    rw [List.map_cons, alookup]
    by_cases hp : p.1 = T
    · rw [if_pos hp, if_neg (show ¬((T, m).1 = T') from fun he => h he.symm)]
      rw [show alookup T' (p :: rest) = alookup T' rest from by
        rw [alookup, if_neg (by rw [hp]; exact fun he => h he.symm)]]
      exact ih
    · rw [if_neg hp]
      rw [show alookup T' (p :: rest) = if p.1 = T' then some p.2 else alookup T' rest
        from rfl]
      by_cases hq : p.1 = T'
      · rw [if_pos hq, if_pos hq]
      · rw [if_neg hq, if_neg hq, ih]

theorem alookup_setType_self (em : EntityMapping) (T : Str) (m : TypeMap) :
    alookup T (setType em T m) = some m := by
  rw [setType]
  split
  · next hsome => exact alookup_mapUpdate_self em T m hsome
  · next hnone =>
    rw [alookup_append_none T em _ (Option.not_isSome_iff_eq_none.mp hnone),
      alookup, if_pos rfl]

theorem alookup_setType_ne (em : EntityMapping) (T T' : Str) (m : TypeMap)
    (h : T' ≠ T) : alookup T' (setType em T m) = alookup T' em := by
  rw [setType]
  split
  · exact alookup_mapUpdate_ne em T T' m h
  · rcases h2 : alookup T' em with _ | v
    · rw [alookup_append_none T' em _ h2, alookup,
        if_neg (show ¬((T, m).1 = T') from fun he => h he.symm)]
      rfl
    · exact alookup_append_some T' em _ v h2

theorem keys_setType (em : EntityMapping) (T : Str) (m : TypeMap) :
    (setType em T m).map Prod.fst =
      if (alookup T em).isSome then em.map Prod.fst
      else em.map Prod.fst ++ [T] := by
  rw [setType]
  split
  · rw [List.map_map]
    apply List.map_congr_left
    intro p _
    by_cases hp : p.1 = T
    · simp [Function.comp, hp]
    · simp [Function.comp, hp]
  · rw [List.map_append]
    rfl

/-! ### Well-formedness of the entity mapping -/


theorem mappingWF_nil : mappingWF [] := ⟨List.nodup_nil, fun p hp => absurd hp (List.not_mem_nil p)⟩


theorem mapLE_refl (em : EntityMapping) : mapLE em em :=
  fun T mt h => ⟨[], by simpa using h⟩

theorem mapLE_trans {a b c : EntityMapping} (h1 : mapLE a b) (h2 : mapLE b c) :
    mapLE a c := by
  intro T mt h
  obtain ⟨e1, hb⟩ := h1 T mt h
  obtain ⟨e2, hc⟩ := h2 T _ hb
  exact ⟨e1 ++ e2, by rw [hc, List.append_assoc]⟩

theorem foldl_max_le_iff (is : List Int) (i B : Int) :
    is.foldl max i ≤ B ↔ i ≤ B ∧ ∀ x ∈ is, x ≤ B := by
  induction is generalizing i with
  | nil => simp
  | cons x xs ih =>
    rw [List.foldl_cons, ih]
    constructor
    · rintro ⟨hm, hall⟩
      exact ⟨le_trans (le_max_left i x) hm,
        fun y hy => by
          rcases List.mem_cons.mp hy with rfl | hy
          · exact le_trans (le_max_right i y) hm
          · exact hall y hy⟩
    · rintro ⟨hi, hall⟩
      exact ⟨max_le hi (hall x (List.mem_cons_self x xs)),
        fun y hy => hall y (List.mem_cons_of_mem _ hy)⟩

theorem seed_le_foldl_max (is : List Int) (i : Int) : i ≤ is.foldl max i := by
  induction is generalizing i with
  | nil => exact le_refl i
  | cons x xs ih =>
    rw [List.foldl_cons]
    exact le_trans (le_max_left i x) (ih (max i x))

theorem le_foldl_max (is : List Int) (i : Int) (x : Int)
    (hx : x ∈ i :: is) : x ≤ is.foldl max i := by
  induction is generalizing i with
  | nil =>
    rcases List.mem_cons.mp hx with rfl | hx
    · exact le_refl x
    · exact absurd hx (List.not_mem_nil x)
  | cons y ys ih =>
    rw [List.foldl_cons]
    rcases List.mem_cons.mp hx with rfl | hx'
    · exact le_trans (le_max_left x y) (seed_le_foldl_max ys (max x y))
    · rcases List.mem_cons.mp hx' with rfl | hx''
      · exact le_trans (le_max_right i x) (seed_le_foldl_max ys (max i x))
      · exact ih (max i y) (List.mem_cons.mpr (Or.inr hx''))

theorem foldl_max_mem (is : List Int) (i : Int) : is.foldl max i ∈ i :: is := by
  induction is generalizing i with
  | nil => simp
  | cons x xs ih =>
    rw [List.foldl_cons]
    have := ih (max i x)
    rcases List.mem_cons.mp this with hm | hm
    · rcases max_choice i x with hc | hc
      · rw [hm, hc]
        exact List.mem_cons_self _ _
      · rw [hm, hc]
        exact List.mem_cons_of_mem _ (List.mem_cons_self _ _)
    · exact List.mem_cons_of_mem _ (List.mem_cons_of_mem _ hm)

theorem mapM_map_eq_some {α β γ : Type} (l : List α) (f : α → β)
    (g : β → Option γ) (h : α → γ) (H : ∀ x ∈ l, g (f x) = some (h x)) :
    (l.map f).mapM g = some (l.map h) := by
  induction l with
  | nil => rfl
  | cons x xs ih =>
    rw [List.map_cons, List.map_cons, List.mapM_cons,
      H x (List.mem_cons_self _ _), ih fun y hy => H y (List.mem_cons_of_mem _ hy)]
    rfl

theorem _get_last_index_WF (T : Str) (mt : TypeMap) (h : typeWF T mt)
    (hne : mt ≠ []) : _get_last_index mt = some ((mt.length : Int) - 1) := by
  obtain ⟨-, htok⟩ := h
  have hmapM : (mt.map Prod.snd).mapM get_index =
      some (List.map (fun i : Nat => (i : Int)) (List.range mt.length)) := by
    rw [htok]
    exact mapM_map_eq_some _ _ _ _ fun i _ => get_index_fmtNat T i
  rw [_get_last_index, hmapM]
  rcases hk : mt.length with _ | k
  · exact absurd (List.length_eq_zero.mp hk) hne
  · rcases hL : List.map (fun i : Nat => (i : Int)) (List.range (k + 1))
        with _ | ⟨i, is⟩
    · exact absurd hL (by simp [List.range_succ])
    · have hmem : ∀ x ∈ i :: is, x ≤ (k : Int) := by
        rw [← hL]
        intro x hx
        obtain ⟨j, hj, rfl⟩ := List.mem_map.mp hx
        exact_mod_cast Nat.lt_succ_iff.mp (List.mem_range.mp hj)
      have hkmem : (k : Int) ∈ i :: is := by
        rw [← hL]
        exact List.mem_map.mpr ⟨k, List.mem_range.mpr (Nat.lt_succ_self k), rfl⟩
      have h1 : is.foldl max i ≤ (k : Int) := by
        rcases List.mem_cons.mp (foldl_max_mem is i) with hm | hm
        · rw [hm]
          exact hmem i (List.mem_cons_self _ _)
        · exact hmem _ (List.mem_cons_of_mem _ hm)
      have h2 : (k : Int) ≤ is.foldl max i := le_foldl_max is i _ hkmem
      have heq : is.foldl max i = (k : Int) := le_antisymm h1 h2
      show some (is.foldl max i) = some (((k + 1 : Nat) : Int) - 1)
      rw [heq]
      congr 1
      push_cast
      ring

theorem tokens_nodup (T : Str) (mt : TypeMap) (h : typeWF T mt) :
    (mt.map Prod.snd).Nodup := by
  rw [h.2]
  exact (List.nodup_range _).map_on fun x _ y _ hxy => fmtNat_index_inj T hxy

theorem findKey_of_alookup (mt : TypeMap) (V tok : Str)
    (hnd : (mt.map Prod.snd).Nodup) (h : alookup V mt = some tok) :
    InstanceCounterDeanonymizer._find_key_by_value mt tok = some V := by
  induction mt with
  | nil => exact absurd h (by simp [alookup])
  | cons p rest ih =>
    rw [alookup] at h
    rw [InstanceCounterDeanonymizer._find_key_by_value]
    split at h
    · next hp =>
      obtain rfl := Option.some_inj.mp h
      rw [if_pos rfl, hp]
    · next hp =>
      rw [List.map_cons, List.nodup_cons] at hnd
      have htokmem : tok ∈ rest.map Prod.snd :=
        List.mem_map.mpr ⟨(V, tok), alookup_mem h, rfl⟩
      rw [if_neg fun he => hnd.1 (by rw [he]; exact htokmem)]
      exact ih hnd.2 h

theorem findKey_append_left (m₁ m₂ : TypeMap) (tok V : Str)
    (h : InstanceCounterDeanonymizer._find_key_by_value m₁ tok = some V) :
    InstanceCounterDeanonymizer._find_key_by_value (m₁ ++ m₂) tok = some V := by
  induction m₁ with
  | nil => exact absurd h (by simp [InstanceCounterDeanonymizer._find_key_by_value])
  | cons p rest ih =>
    rw [InstanceCounterDeanonymizer._find_key_by_value] at h
    rw [List.cons_append, InstanceCounterDeanonymizer._find_key_by_value]
    split at h
    · next hp => rw [if_pos hp]; exact h
    · next hp => rw [if_neg hp]; exact ih h

theorem alookup_of_mem_nodup {α : Type} {l : List (Str × α)} {k : Str} {v : α}
    (hnd : (l.map Prod.fst).Nodup) (hmem : (k, v) ∈ l) : alookup k l = some v := by
  induction l with
  | nil => exact absurd hmem (List.not_mem_nil _)
  | cons p rest ih =>
    rw [List.map_cons, List.nodup_cons] at hnd
    rcases List.mem_cons.mp hmem with rfl | hmem'
    · rw [alookup, if_pos rfl]
    · rw [alookup]
      split
      · next hp =>
        exact absurd (List.mem_map.mpr ⟨(k, v), hmem', hp.symm⟩) hnd.1
      · exact ih hnd.2 hmem'

theorem alookup_append_singleton_ne {α : Type} (em : List (Str × α))
    (T T' : Str) (m : α) (h : T' ≠ T) :
    alookup T' (em ++ [(T, m)]) = alookup T' em := by
  rcases h2 : alookup T' em with _ | v
  · rw [alookup_append_none T' em _ h2, alookup,
      if_neg (show ¬((T, m).1 = T') from fun he => h he.symm)]
    rfl
  · exact alookup_append_some T' em _ v h2

theorem findKey_append_right (m₁ m₂ : TypeMap) (tok : Str)
    (h : tok ∉ m₁.map Prod.snd) :
    InstanceCounterDeanonymizer._find_key_by_value (m₁ ++ m₂) tok =
      InstanceCounterDeanonymizer._find_key_by_value m₂ tok := by
  induction m₁ with
  | nil => rfl
  | cons p rest ih =>
    rw [List.cons_append, InstanceCounterDeanonymizer._find_key_by_value,
      if_neg (fun he => h (by rw [List.map_cons]; exact List.mem_cons.mpr (Or.inl he.symm)))]
    exact ih fun hm => h (by rw [List.map_cons]; exact List.mem_cons.mpr (Or.inr hm))

theorem fresh_token_not_mem (T : Str) (mt : TypeMap) (h : typeWF T mt) :
    REPLACING_FORMAT T (natToChars mt.length) ∉ mt.map Prod.snd := by
  rw [h.2]
  intro hmem
  obtain ⟨j, hj, hje⟩ := List.mem_map.mp hmem
  exact absurd (fmtNat_index_inj T hje) (Nat.ne_of_lt (List.mem_range.mp hj))

theorem intToChars_zero : intToChars 0 = natToChars 0 := by
  rw [intToChars, if_neg (by omega)]
  rfl

/-- Master case analysis of `InstanceCounterAnonymizer.operate` from a
well-formed mapping: the call succeeds, preserves well-formedness, extends
every stored dictionary only at the end, stores a reverse-recoverable entry
for the processed value, changes the stored keys of exactly the processed
entity type by inserting the processed value, and returns a token of the
wire format, with a fresh type starting at index zero. -/
theorem operate_spec (T V : Str) (em : EntityMapping) (hWF : mappingWF em) :
    ∃ tok em',
      InstanceCounterAnonymizer.operate T V em = some (tok, em') ∧
      mappingWF em' ∧ mapLE em em' ∧
      (∃ mt', alookup T em' = some mt' ∧
        alookup V mt' = some tok ∧ tok ∈ mt'.map Prod.snd ∧
        InstanceCounterDeanonymizer._find_key_by_value mt' tok = some V) ∧
      (∀ T' v, v ∈ ((alookup T' em').getD []).map Prod.fst ↔
        (v ∈ ((alookup T' em).getD []).map Prod.fst ∨ (T' = T ∧ v = V))) ∧
      (∃ n : Nat, tok = REPLACING_FORMAT T (natToChars n)) ∧
      (alookup T em = none → tok = REPLACING_FORMAT T (natToChars 0)) := by
  obtain ⟨hkeys, hstores⟩ := hWF
  have hTnotin := alookup_eq_none T em
  rcases hT : alookup T em with _ | mt
  · -- fresh entity type: first index is 0
    have h0 := intToChars_zero
    have hset : setType em T [(V, REPLACING_FORMAT T (intToChars 0))] =
        em ++ [(T, [(V, REPLACING_FORMAT T (intToChars 0))])] := by
      rw [setType, hT]
      rfl
    have hop : InstanceCounterAnonymizer.operate T V em =
        some (REPLACING_FORMAT T (intToChars 0),
          em ++ [(T, [(V, REPLACING_FORMAT T (intToChars 0))])]) := by
      simp only [InstanceCounterAnonymizer.operate, hT, hset]
    refine ⟨REPLACING_FORMAT T (intToChars 0),
      em ++ [(T, [(V, REPLACING_FORMAT T (intToChars 0))])],
      hop, ⟨?_, ?_⟩, ?_, ?_, ?_, ?_, ?_⟩
    · rw [List.map_append, List.nodup_append]
      refine ⟨hkeys, by simp, ?_⟩
      intro a ha hmem
      rw [List.map_cons] at hmem
      rcases List.mem_cons.mp hmem with rfl | hmem
      · exact (hTnotin.mp hT) ha
      · exact absurd hmem (List.not_mem_nil a)
    · intro p hp
      rcases List.mem_append.mp hp with hp | hp
      · exact hstores p hp
      · rcases List.mem_cons.mp hp with rfl | hp
        · refine ⟨List.cons_ne_nil _ _, List.nodup_singleton V, ?_⟩
          rw [h0]
          simp [List.range_succ]
        · exact absurd hp (List.not_mem_nil p)
    · intro T₀ mt₀ h₀
      exact ⟨[], by rw [List.append_nil]; exact alookup_append_some T₀ em _ mt₀ h₀⟩
    · refine ⟨[(V, REPLACING_FORMAT T (intToChars 0))], ?_, ?_, ?_, ?_⟩
      · rw [alookup_append_none T em _ hT, alookup, if_pos rfl]
      · rw [alookup, if_pos rfl]
      · simp
      · rw [InstanceCounterDeanonymizer._find_key_by_value, if_pos rfl]
    · intro T' v
      by_cases hTT : T' = T
      · subst hTT
        rw [alookup_append_none T' em _ hT, hT]
        constructor
        · intro h
          rcases List.mem_cons.mp (by
            rw [show alookup T' [(T', [(V, REPLACING_FORMAT T' (intToChars 0))])] =
                some [(V, REPLACING_FORMAT T' (intToChars 0))] from by
              rw [alookup, if_pos rfl]] at h
            exact h) with h1 | h1
          · exact Or.inr ⟨rfl, h1⟩
          · exact absurd h1 (List.not_mem_nil v)
        · rintro (h | ⟨-, rfl⟩)
          · exact absurd h (by simp)
          · rw [alookup, if_pos rfl]
            exact List.mem_cons_self _ _
      · rw [alookup_append_singleton_ne em T T' _ hTT]
        constructor
        · exact fun h => Or.inl h
        · rintro (h | ⟨he, -⟩)
          · exact h
          · exact absurd he hTT
    · exact ⟨0, by rw [h0]⟩
    · intro
      rw [h0]
  · -- entity type already present
    have hmemT : (T, mt) ∈ em := alookup_mem hT
    have hmtne : mt ≠ [] := (hstores (T, mt) hmemT).1
    have hWFT : typeWF T mt := (hstores (T, mt) hmemT).2
    rcases hV : alookup V mt with _ | tok
    · -- fresh value under an existing type: index = last + 1
      have hlast := _get_last_index_WF T mt hWFT hmtne
      have hcast : (mt.length : Int) - 1 + 1 = ((mt.length : Nat) : Int) := by
        ring
      have htokn : REPLACING_FORMAT T (intToChars ((mt.length : Int) - 1 + 1)) =
          REPLACING_FORMAT T (natToChars mt.length) := by
        rw [hcast, intToChars_ofNat]
      set tok := REPLACING_FORMAT T (natToChars mt.length) with htokdef
      have hfresh : tok ∉ mt.map Prod.snd := fresh_token_not_mem T mt hWFT
      have hop : InstanceCounterAnonymizer.operate T V em =
          some (tok, setType em T (mt ++ [(V, tok)])) := by
        simp only [InstanceCounterAnonymizer.operate, hT, if_neg hmtne, hV, hlast, htokn]
      have hVnotin : V ∉ mt.map Prod.fst := (alookup_eq_none V mt).mp hV
      have hWFmt' : typeWF T (mt ++ [(V, tok)]) := by
        constructor
        · rw [List.map_append, List.nodup_append]
          refine ⟨hWFT.1, by simp, ?_⟩
          intro a ha hmem
          rw [List.map_cons] at hmem
          rcases List.mem_cons.mp hmem with rfl | hmem
          · exact hVnotin ha
          · exact absurd hmem (List.not_mem_nil a)
        · rw [List.map_append, hWFT.2, List.length_append, List.map_cons,
            List.map_nil, List.length_cons, List.length_nil, List.range_succ,
            List.map_append]
          rfl
      have hTsome : (alookup T em).isSome = true := by
        rw [hT]
        rfl
      refine ⟨tok, setType em T (mt ++ [(V, tok)]), hop, ⟨?_, ?_⟩, ?_, ?_, ?_, ?_, ?_⟩
      · rw [keys_setType, if_pos hTsome]
        exact hkeys
      · intro p hp
        rw [setType, if_pos hTsome] at hp
        obtain ⟨q, hq, rfl⟩ := List.mem_map.mp hp
        by_cases hqT : q.1 = T
        · rw [if_pos hqT]
          have halq : alookup q.1 em = some q.2 := alookup_of_mem_nodup hkeys (by
            rw [Prod.mk.eta]
            exact hq)
          rw [hqT, hT] at halq
          obtain rfl := Option.some_inj.mp halq
          exact ⟨by simp, hWFmt'⟩
        · rw [if_neg hqT]
          exact hstores q hq
      · intro T₀ mt₀ h₀
        by_cases hT₀ : T₀ = T
        · subst hT₀
          rw [hT] at h₀
          obtain rfl := Option.some_inj.mp h₀
          exact ⟨[(V, tok)], alookup_setType_self em T₀ _⟩
        · exact ⟨[], by rw [List.append_nil, alookup_setType_ne em T T₀ _ hT₀]; exact h₀⟩
      · refine ⟨mt ++ [(V, tok)], alookup_setType_self em T _, ?_, ?_, ?_⟩
        · rw [alookup_append_none V mt _ hV, alookup, if_pos rfl]
        · rw [List.map_append]
          exact List.mem_append.mpr (Or.inr (by simp))
        · rw [findKey_append_right mt _ tok hfresh,
            InstanceCounterDeanonymizer._find_key_by_value, if_pos rfl]
      · intro T' v
        by_cases hTT : T' = T
        · subst hTT
          rw [alookup_setType_self em T' _, hT]
          show v ∈ (mt ++ [(V, tok)]).map Prod.fst ↔ v ∈ mt.map Prod.fst ∨ (T' = T' ∧ v = V)
          rw [List.map_append, List.mem_append]
          constructor
          · rintro (hm | hm)
            · exact Or.inl hm
            · rcases List.mem_cons.mp hm with rfl | hm
              · exact Or.inr ⟨rfl, rfl⟩
              · exact absurd hm (List.not_mem_nil v)
          · rintro (hm | ⟨-, rfl⟩)
            · exact Or.inl hm
            · exact Or.inr (List.mem_cons_self _ _)
        · rw [alookup_setType_ne em T T' _ hTT]
          constructor
          · exact fun h => Or.inl h
          · rintro (h | ⟨he, -⟩)
            · exact h
            · exact absurd he hTT
      · exact ⟨mt.length, rfl⟩
      · intro hc
        injection hc
    · -- value already mapped: idempotent return
      have hop : InstanceCounterAnonymizer.operate T V em = some (tok, em) := by
        simp only [InstanceCounterAnonymizer.operate, hT, if_neg hmtne, hV]
      refine ⟨tok, em, hop, ⟨hkeys, hstores⟩, mapLE_refl em, ?_, ?_, ?_, ?_⟩
      · refine ⟨mt, hT, hV, ?_, ?_⟩
        · exact List.mem_map.mpr ⟨(V, tok), alookup_mem hV, rfl⟩
        · exact findKey_of_alookup mt V tok (tokens_nodup T mt hWFT) hV
      · intro T' v
        constructor
        · exact fun h => Or.inl h
        · rintro (h | ⟨rfl, rfl⟩)
          · exact h
          · rw [hT]
            exact List.mem_map.mpr ⟨(v, tok), alookup_mem hV, rfl⟩
      · have htokmem : tok ∈ mt.map Prod.snd :=
          List.mem_map.mpr ⟨(V, tok), alookup_mem hV, rfl⟩
        rw [hWFT.2] at htokmem
        obtain ⟨n, -, hn⟩ := List.mem_map.mp htokmem
        exact ⟨n, hn.symm⟩
      · intro hc
        injection hc

/-! ### Substitution round trip -/

theorem extract_shift (pre t : Str) (x y : Nat) :
    extract (pre ++ t) (x + pre.length) (y + pre.length) = extract t x y := by
  rw [extract, extract]
  have hd : (pre ++ t).drop (x + pre.length) = t.drop x := by
    rw [Nat.add_comm x pre.length, ← List.drop_drop, List.drop_left]
  rw [hd]
  congr 1
  omega

theorem extract_token (gap tok rest : Str) :
    extract (gap ++ tok ++ rest) gap.length (gap.length + tok.length) = tok := by
  rw [extract, List.append_assoc, List.drop_left,
    Nat.add_sub_cancel_left, List.take_left]

theorem extract_zero_prefix (a b : Str) : extract (a ++ b) 0 a.length = a := by
  rw [extract, List.drop_zero, Nat.sub_zero, List.take_left]

theorem drop_decompose (l : Str) (a b : Nat) (hab : a ≤ b) :
    l.drop a = extract l a b ++ l.drop b := by
  rw [extract]
  have h1 : l.drop b = (l.drop a).drop (b - a) := by
    rw [List.drop_drop]
    congr 1
    omega
  rw [h1, List.take_append_drop]

theorem extract_length (l : Str) (a b : Nat) :
    (extract l a b).length = min (b - a) (l.length - a) := by
  rw [extract, List.length_take, List.length_drop]

/-- A reverse-lookup entry survives any later prefix extension of the
mapping: the deanonymize operator still restores the original value. -/
theorem deanon_stable (T V tok : Str) (em₁ : EntityMapping)
    (h : ∃ mt', alookup T em₁ = some mt' ∧ alookup V mt' = some tok ∧
      tok ∈ mt'.map Prod.snd ∧
      InstanceCounterDeanonymizer._find_key_by_value mt' tok = some V)
    (em₂ : EntityMapping) (hle : mapLE em₁ em₂) :
    InstanceCounterDeanonymizer.operate T tok em₂ = .ok (some V) := by
  obtain ⟨mt', hT, hV, hmem, hfind⟩ := h
  obtain ⟨ext, hT₂⟩ := hle T mt' hT
  simp only [InstanceCounterDeanonymizer.operate, hT₂]
  rw [if_pos (by rw [List.map_append]; exact List.mem_append.mpr (Or.inl hmem)),
    findKey_append_left _ _ _ _ hfind]

theorem deanonFrom_shift (pre t : Str) (items : List Item) :
    ∀ (p : Nat) (em : EntityMapping),
      deanonFrom (pre ++ t) (p + pre.length)
        (items.map fun it =>
          ⟨it.entity_type, it.start + pre.length, it.stop + pre.length⟩) em =
      deanonFrom t p items em := by
  induction items with
  | nil =>
    intro p em
    rw [List.map_nil, deanonFrom, deanonFrom,
      Nat.add_comm p pre.length, ← List.drop_drop, List.drop_left]
  | cons it rest ih =>
    intro p em
    simp only [List.map_cons, deanonFrom, extract_shift, ih]

/-- The round trip: from a well-formed mapping, anonymization of ordered
non-overlapping spans succeeds, preserves well-formedness, only extends the
mapping, and replaying the substitution records through the deanonymize
operator against the final mapping (or any later extension of it) restores
the processed suffix of the document exactly. -/
theorem anonymize_roundTrip (spans : List Span) :
    ∀ (text : Str) (pos : Nat) (em : EntityMapping),
      mappingWF em → spansOK pos spans →
      ∃ out items em',
        anonymizeFrom text pos spans em = some (out, items, em') ∧
        mappingWF em' ∧ mapLE em em' ∧
        ∀ emF, mapLE em' emF →
          deanonFrom out 0 items emF = .ok (text.drop pos) := by
  induction spans with
  | nil =>
    intro text pos em hWF _
    exact ⟨text.drop pos, [], em, rfl, hWF, mapLE_refl em, fun emF _ => rfl⟩
  | cons s rest ih =>
    intro text pos em hWF hok
    obtain ⟨hpos, hss, hrest⟩ := hok
    obtain ⟨tok, em₁, hop, hWF₁, hle₁, hseed, -, -, -⟩ :=
      operate_spec s.entity_type (extract text s.start s.stop) em hWF
    obtain ⟨tailOut, tailItems, em₂, htail, hWF₂, hle₂, hdeanon⟩ :=
      ih text s.stop em₁ hWF₁ hrest
    refine ⟨extract text pos s.start ++ tok ++ tailOut,
      ⟨s.entity_type, (extract text pos s.start).length,
        (extract text pos s.start).length + tok.length⟩ ::
        tailItems.map (fun it =>
          ⟨it.entity_type,
            it.start + ((extract text pos s.start).length + tok.length),
            it.stop + ((extract text pos s.start).length + tok.length)⟩),
      em₂, ?_, hWF₂, mapLE_trans hle₁ hle₂, ?_⟩
    · simp only [anonymizeFrom, hop, htail]
    · intro emF hleF
      have hro : InstanceCounterDeanonymizer.operate s.entity_type tok emF =
          .ok (some (extract text s.start s.stop)) :=
        deanon_stable s.entity_type (extract text s.start s.stop) tok em₁ hseed
          emF (mapLE_trans hle₂ hleF)
      have hrec : deanonFrom (extract text pos s.start ++ tok ++ tailOut)
          ((extract text pos s.start).length + tok.length)
          (tailItems.map (fun it =>
            ⟨it.entity_type,
              it.start + ((extract text pos s.start).length + tok.length),
              it.stop + ((extract text pos s.start).length + tok.length)⟩)) emF =
          .ok (text.drop s.stop) := by
        have h1 := deanonFrom_shift (extract text pos s.start ++ tok) tailOut
          tailItems 0 emF
        rw [Nat.zero_add, List.length_append] at h1
        rw [h1]
        exact hdeanon emF hleF
      simp only [deanonFrom, extract_token, hro, hrec, Option.getD_some]
      rw [drop_decompose text pos s.start hpos, drop_decompose text s.start s.stop hss]
      simp [List.append_assoc, extract_zero_prefix]

theorem extract_append_left (l₁ l₂ : Str) (x y : Nat) (hxy : x ≤ y)
    (h : y ≤ l₁.length) : extract (l₁ ++ l₂) x y = extract l₁ x y := by
  rw [extract, extract, List.drop_append_of_le_length (le_trans hxy h),
    List.take_append_of_le_length (by rw [List.length_drop]; omega)]

theorem extract_extract (l : Str) (p s a c : Nat) (hpa : p ≤ a) (hcs : c ≤ s) :
    extract (extract l p s) (a - p) (a - p + (c - a)) = extract l a c := by
  rw [extract, extract, extract, List.drop_take, List.drop_drop, List.take_take]
  have e1 : min (a - p + (c - a) - (a - p)) (s - p - (a - p)) = c - a := by omega
  have e2 : p + (a - p) = a := by omega
  rw [e1, e2]

/-- Modelled-engine counterpart of "spans below the threshold are never
altered": any document region disjoint from every processed span reappears
verbatim in the anonymized output. -/
theorem gap_preserved (spans : List Span) :
    ∀ (text : Str) (pos : Nat) (em : EntityMapping) (out : Str)
      (items : List Item) (em' : EntityMapping),
      spansOK pos spans →
      anonymizeFrom text pos spans em = some (out, items, em') →
      ∀ a c : Nat, pos ≤ a → a ≤ c → c ≤ text.length →
        (∀ s ∈ spans, c ≤ s.start ∨ s.stop ≤ a) →
        ∃ q, extract out q (q + (c - a)) = extract text a c := by
  induction spans with
  | nil =>
    intro text pos em out items em' _ hanon a c hpa hac hcl _
    rw [anonymizeFrom, Option.some_inj, Prod.mk.injEq, Prod.mk.injEq] at hanon
    obtain ⟨rfl, -, -⟩ := hanon
    refine ⟨a - pos, ?_⟩
    have e1 : pos + (a - pos) = a := by omega
    have e2 : a - pos + (c - a) - (a - pos) = c - a := by omega
    rw [extract, extract, List.drop_drop, e1, e2]
  | cons s rest ih =>
    intro text pos em out items em' hok hanon a c hpa hac hcl hdisj
    obtain ⟨hpos, hss, hrest⟩ := hok
    rcases hop : InstanceCounterAnonymizer.operate s.entity_type
        (extract text s.start s.stop) em with _ | ⟨tok, em₁⟩
    · simp only [anonymizeFrom, hop] at hanon
      injection hanon
    · rcases htail : anonymizeFrom text s.stop rest em₁
          with _ | ⟨tailOut, tailItems, em₂⟩
      · simp only [anonymizeFrom, hop, htail] at hanon
        injection hanon
      · simp only [anonymizeFrom, hop, htail, Option.some_inj, Prod.mk.injEq] at hanon
        obtain ⟨rfl, -, -⟩ := hanon
        rcases hdisj s (List.mem_cons_self s rest) with hc | hc
        · -- the region lies inside the gap before this span
          refine ⟨a - pos, ?_⟩
          rw [List.append_assoc,
            extract_append_left _ _ _ _ (by omega) (by rw [extract_length]; omega),
            extract_extract text pos s.start a c hpa hc]
        · -- the region lies after this span: recurse into the tail
          obtain ⟨q', hq'⟩ := ih text s.stop em₁ tailOut tailItems em₂ hrest htail
            a c hc hac hcl (fun s' hs' => hdisj s' (List.mem_cons_of_mem s hs'))
          refine ⟨q' + (extract text pos s.start ++ tok).length, ?_⟩
          have e3 : q' + (extract text pos s.start ++ tok).length + (c - a) =
              q' + (c - a) + (extract text pos s.start ++ tok).length := by omega
          rw [e3, extract_shift]
          exact hq'

/-- Replaying any sequence of assignment calls from a well-formed mapping
succeeds, preserves well-formedness, and the stored original values of each
entity type grow by exactly the values called under that type. -/
theorem runCalls_spec (calls : List (Str × Str)) :
    ∀ em, mappingWF em →
      ∃ em', runCalls calls em = some em' ∧ mappingWF em' ∧
        ∀ T v, v ∈ ((alookup T em').getD []).map Prod.fst ↔
          (v ∈ ((alookup T em).getD []).map Prod.fst ∨ (T, v) ∈ calls) := by
  induction calls with
  | nil =>
    intro em h
    refine ⟨em, rfl, h, fun T v => ⟨Or.inl, ?_⟩⟩
    rintro (hm | hm)
    · exact hm
    · exact absurd hm (List.not_mem_nil _)
  | cons c rest ih =>
    obtain ⟨t, v⟩ := c
    intro em hWF
    obtain ⟨tok, em₁, hop, hWF₁, -, -, hkeys, -, -⟩ := operate_spec t v em hWF
    obtain ⟨em', hrun, hWF', hkeys'⟩ := ih em₁ hWF₁
    refine ⟨em', ?_, hWF', ?_⟩
    · simp only [runCalls, hop, hrun]
    · intro T v'
      rw [hkeys' T v', hkeys T v']
      constructor
      · rintro ((h | ⟨rfl, rfl⟩) | h)
        · exact Or.inl h
        · exact Or.inr (List.mem_cons_self _ _)
        · exact Or.inr (List.mem_cons_of_mem _ h)
      · rintro (h | h)
        · exact Or.inl (Or.inl h)
        · rcases List.mem_cons.mp h with he | hm
          · obtain ⟨rfl, rfl⟩ := Prod.mk.injEq .. |>.mp he
            exact Or.inl (Or.inr ⟨rfl, rfl⟩)
          · exact Or.inr hm

/-! ### Remaining helper lemmas -/

theorem operate_found (T V tok : Str) (em : EntityMapping) (mt : TypeMap)
    (hT : alookup T em = some mt) (hne : mt ≠ [])
    (hV : alookup V mt = some tok) :
    InstanceCounterAnonymizer.operate T V em = some (tok, em) := by
  simp only [InstanceCounterAnonymizer.operate, hT, if_neg hne, hV]

theorem operate_fresh_type (T V : Str) (em : EntityMapping)
    (h : alookup T em = none ∨ alookup T em = some []) :
    InstanceCounterAnonymizer.operate T V em =
      some (REPLACING_FORMAT T (natToChars 0),
        setType em T [(V, REPLACING_FORMAT T (natToChars 0))]) := by
  rcases h with h | h
  · simp [InstanceCounterAnonymizer.operate, h, intToChars_zero]
  · simp [InstanceCounterAnonymizer.operate, h, intToChars_zero]

theorem natToChars_no_leading_zero (n : Nat) :
    natToChars n = ['0'] ∨ (natToChars n).head? ≠ some '0' := by
  rcases Nat.eq_zero_or_pos n with rfl | hn
  · left
    rfl
  · right
    rw [natToChars, if_neg hn.ne']
    have hne : Nat.digits 10 n ≠ [] := Nat.digits_ne_nil_iff_ne_zero.mpr hn.ne'
    rw [List.head?_map, List.head?_reverse, List.getLast?_eq_getLast _ hne]
    intro hcon
    have hd0 : Nat.digitChar ((Nat.digits 10 n).getLast hne) = '0' := by
      simpa using hcon
    have hdmem : (Nat.digits 10 n).getLast hne ∈ Nat.digits 10 n :=
      List.getLast_mem hne
    have hdlt : (Nat.digits 10 n).getLast hne < 10 :=
      Nat.digits_lt_base (by norm_num) hdmem
    exact Nat.getLast_digit_ne_zero 10 hn.ne'
      ((digitChar_spec _ hdlt).2.2.2.2.2.2.2 hd0)

theorem mapM_mem_some {β γ : Type} (g : β → Option γ) :
    ∀ (l : List β) (L : List γ), l.mapM g = some L →
      ∀ b ∈ l, ∃ c, g b = some c ∧ c ∈ L := by
  intro l
  induction l with
  | nil =>
    intro L _ b hb
    exact absurd hb (List.not_mem_nil b)
  | cons b bs ih =>
    intro L hL x hx
    rw [List.mapM_cons] at hL
    rcases hg : g b with _ | c₀
    · rw [hg] at hL
      exact absurd hL (by simp)
    · rw [hg] at hL
      rcases hgs : bs.mapM g with _ | L'
      · rw [hgs] at hL
        exact absurd hL (by simp)
      · rw [hgs] at hL
        have hLc : L = c₀ :: L' := by
          injection hL with h
          exact h.symm
        subst hLc
        rcases List.mem_cons.mp hx with rfl | hx'
        · exact ⟨c₀, hg, List.mem_cons_self _ _⟩
        · obtain ⟨c, hc, hcm⟩ := ih L' hgs x hx'
          exact ⟨c, hc, List.mem_cons_of_mem _ hcm⟩

/-! ### Claims -/

/-- Claim C2: for every entity type `T` and original value `V`, calling
`InstanceCounterAnonymizer.operate` twice with the same `T` and `V` returns
the same token both times, and the second call leaves the entity mapping
unchanged. -/
theorem c2_idempotent_assignment (T V : Str) (em : EntityMapping)
    (tok : Str) (em' : EntityMapping)
    (h : InstanceCounterAnonymizer.operate T V em = some (tok, em')) :
    InstanceCounterAnonymizer.operate T V em' = some (tok, em') := by
  rcases hT : alookup T em with _ | mt
  · rw [operate_fresh_type T V em (Or.inl hT), Option.some_inj, Prod.mk.injEq] at h
    obtain ⟨rfl, rfl⟩ := h
    exact operate_found T V _ _ [(V, REPLACING_FORMAT T (natToChars 0))]
      (alookup_setType_self em T _) (List.cons_ne_nil _ _)
      (by rw [alookup, if_pos rfl])
  · by_cases hmt : mt = []
    · subst hmt
      rw [operate_fresh_type T V em (Or.inr hT), Option.some_inj, Prod.mk.injEq] at h
      obtain ⟨rfl, rfl⟩ := h
      exact operate_found T V _ _ [(V, REPLACING_FORMAT T (natToChars 0))]
        (alookup_setType_self em T _) (List.cons_ne_nil _ _)
        (by rw [alookup, if_pos rfl])
    · rcases hV : alookup V mt with _ | tok0
      · rcases hlast : _get_last_index mt with _ | prev
        · simp only [InstanceCounterAnonymizer.operate, hT, if_neg hmt, hV,
            hlast] at h
          injection h
        · simp only [InstanceCounterAnonymizer.operate, hT, if_neg hmt, hV,
            hlast, Option.some_inj, Prod.mk.injEq] at h
          obtain ⟨rfl, rfl⟩ := h
          exact operate_found T V _ _
            (mt ++ [(V, REPLACING_FORMAT T (intToChars (prev + 1)))])
            (alookup_setType_self em T _) (by simp)
            (by rw [alookup_append_none V mt _ hV, alookup, if_pos rfl])
      · simp only [InstanceCounterAnonymizer.operate, hT, if_neg hmt, hV,
          Option.some_inj, Prod.mk.injEq] at h
        obtain ⟨rfl, rfl⟩ := h
        exact operate_found T V tok0 em mt hT hmt hV

/-- Witness for C2: assigning `x` under type `A` twice, starting from the
empty mapping. -/
theorem c2_idempotent_assignment_witness :
    InstanceCounterAnonymizer.operate ['A'] ['x'] [] =
      some (['<', 'A', '_', '0', '>'],
        [(['A'], [(['x'], ['<', 'A', '_', '0', '>'])])]) ∧
    InstanceCounterAnonymizer.operate ['A'] ['x']
        [(['A'], [(['x'], ['<', 'A', '_', '0', '>'])])] =
      some (['<', 'A', '_', '0', '>'],
        [(['A'], [(['x'], ['<', 'A', '_', '0', '>'])])]) := by
  have h1 : InstanceCounterAnonymizer.operate ['A'] ['x'] [] =
      some (['<', 'A', '_', '0', '>'],
        [(['A'], [(['x'], ['<', 'A', '_', '0', '>'])])]) := rfl
  exact ⟨h1, c2_idempotent_assignment ['A'] ['x'] [] _ _ h1⟩

/-- Claim C5: deanonymizing a token whose entity type is absent from the
mapping fails with the unknown-entity-type error naming that type, and a
token absent from the stored values of a present type fails with the
unknown-token error naming the literal token and the type; both failures
are errors, not text. -/
theorem c5_unknown_lookup_errors (T tok : Str) (em : EntityMapping) :
    (alookup T em = none →
      InstanceCounterDeanonymizer.operate T tok em =
        .error (.unknownEntityType T)) ∧
    (∀ mt, alookup T em = some mt → tok ∉ mt.map Prod.snd →
      InstanceCounterDeanonymizer.operate T tok em =
        .error (.unknownToken tok T)) := by
  constructor
  · intro h
    simp only [InstanceCounterDeanonymizer.operate, h]
  · intro mt h hmem
    simp only [InstanceCounterDeanonymizer.operate, h, if_neg hmem]

/-- Witness for C5: a missing entity type and a missing token against a
one-entry mapping. -/
theorem c5_unknown_lookup_errors_witness :
    (alookup ['X'] [(['P'], [(['j'], ['<', 'P', '_', '0', '>'])])] = none ∧
      InstanceCounterDeanonymizer.operate ['X'] ['<', 'X', '_', '0', '>']
          [(['P'], [(['j'], ['<', 'P', '_', '0', '>'])])] =
        .error (.unknownEntityType ['X'])) ∧
    (['<', 'P', '_', '7', '>'] ∉
        [(['j'], ['<', 'P', '_', '0', '>'])].map Prod.snd ∧
      InstanceCounterDeanonymizer.operate ['P'] ['<', 'P', '_', '7', '>']
          [(['P'], [(['j'], ['<', 'P', '_', '0', '>'])])] =
        .error (.unknownToken ['<', 'P', '_', '7', '>'] ['P'])) := by
  refine ⟨⟨by decide, ?_⟩, ⟨by decide, ?_⟩⟩
  · exact (c5_unknown_lookup_errors ['X'] ['<', 'X', '_', '0', '>']
      [(['P'], [(['j'], ['<', 'P', '_', '0', '>'])])]).1 (by decide)
  · exact (c5_unknown_lookup_errors ['P'] ['<', 'P', '_', '7', '>']
      [(['P'], [(['j'], ['<', 'P', '_', '0', '>'])])]).2
      [(['j'], ['<', 'P', '_', '0', '>'])] (by decide) (by decide)

/-- Claim C6: deanonymizing against an empty mapping store returns the
anonymized text unchanged, as a successful no-op, not an error. -/
theorem c6_empty_mapping_noop (res : AnonymizedResult) :
    deanonymize_ticket res [] = .ok (.plainText res.text) := by
  rw [deanonymize_ticket, if_pos rfl]

/-- Claim C9: with a non-injective per-type mapping (two distinct original
values sharing one token), the deanonymize operator silently succeeds and
returns the original value inserted earliest in the dictionary order,
rather than raising an error about the ambiguity. -/
theorem c9_noninjective_returns_earliest (T tok V₁ V₂ : Str)
    (em : EntityMapping) (m₁ m₂ : TypeMap)
    (hT : alookup T em = some (m₁ ++ (V₁, tok) :: m₂))
    (hfirst : tok ∉ m₁.map Prod.snd)
    (_hdup : (V₂, tok) ∈ m₂) (_hne : V₁ ≠ V₂) :
    InstanceCounterDeanonymizer.operate T tok em = .ok (some V₁) := by
  simp only [InstanceCounterDeanonymizer.operate, hT]
  rw [if_pos (by
      rw [List.map_append, List.map_cons]
      exact List.mem_append.mpr (Or.inr (List.mem_cons_self _ _))),
    findKey_append_right m₁ _ tok hfirst,
    InstanceCounterDeanonymizer._find_key_by_value, if_pos rfl]

/-- Witness for C9: `j` and `k` both stored under `P` with the same token;
the lookup returns `j`, the earlier entry. -/
theorem c9_noninjective_returns_earliest_witness :
    alookup ['P'] [(['P'], [(['j'], ['<', 'P', '_', '0', '>']),
        (['k'], ['<', 'P', '_', '0', '>'])])] =
      some ([] ++ (['j'], ['<', 'P', '_', '0', '>']) ::
        [(['k'], ['<', 'P', '_', '0', '>'])]) ∧
    (['j'] : Str) ≠ ['k'] ∧
    InstanceCounterDeanonymizer.operate ['P'] ['<', 'P', '_', '0', '>']
        [(['P'], [(['j'], ['<', 'P', '_', '0', '>']),
          (['k'], ['<', 'P', '_', '0', '>'])])] =
      .ok (some ['j']) := by
  refine ⟨by decide, by decide, ?_⟩
  exact c9_noninjective_returns_earliest ['P'] ['<', 'P', '_', '0', '>']
    ['j'] ['k'] _ [] [(['k'], ['<', 'P', '_', '0', '>'])]
    (by decide) (by decide) (by decide) (by decide)

/-- Claim C10: `deanonymize_ticket` has two result shapes: with an empty
mapping it returns the anonymized text as a plain string, and with a
non-empty mapping it returns an engine result object whose `text` field
holds the restored document. -/
theorem c10_two_result_shapes (res : AnonymizedResult) (em : EntityMapping) :
    (em = [] → deanonymize_ticket res em = .ok (.plainText res.text)) ∧
    (em ≠ [] → ∀ t, deanonFrom res.text 0 res.items em = .ok t →
      deanonymize_ticket res em = .ok (.engineResult ⟨t⟩)) := by
  constructor
  · rintro rfl
    rw [deanonymize_ticket, if_pos rfl]
  · intro hne t h
    rw [deanonymize_ticket, if_neg hne]
    simp only [h]

/-- Witness for C10: both result shapes at concrete inputs. -/
theorem c10_two_result_shapes_witness :
    deanonymize_ticket ⟨['a'], []⟩ [] = .ok (.plainText ['a']) ∧
    ([(['P'], [(['j'], ['t'])])] : EntityMapping) ≠ [] ∧
    deanonFrom ['a'] 0 [] [(['P'], [(['j'], ['t'])])] = .ok ['a'] ∧
    deanonymize_ticket ⟨['a'], []⟩ [(['P'], [(['j'], ['t'])])] =
      .ok (.engineResult ⟨['a']⟩) := by
  refine ⟨?_, by decide, rfl, ?_⟩
  · exact (c10_two_result_shapes ⟨['a'], []⟩ []).1 rfl
  · exact (c10_two_result_shapes ⟨['a'], []⟩ [(['P'], [(['j'], ['t'])])]).2
      (by decide) ['a'] rfl

/-- Claim C4: assigning a token for a value not yet mapped under an existing
entity type uses index `1 + max` of the numeric suffixes parsed out of every
stored token — not the stored size — so a loaded mapping with skipped
indices still produces a fresh token absent from the stored ones; with
nothing stored under the type, the first index is `0`. -/
theorem c4_index_from_suffixes :
    (∀ (T V : Str) (em : EntityMapping) (mt : TypeMap) (M : Int),
      alookup T em = some mt → mt ≠ [] → alookup V mt = none →
      _get_last_index mt = some M →
      InstanceCounterAnonymizer.operate T V em =
        some (REPLACING_FORMAT T (intToChars (M + 1)),
          setType em T
            (mt ++ [(V, REPLACING_FORMAT T (intToChars (M + 1)))])) ∧
      REPLACING_FORMAT T (intToChars (M + 1)) ∉ mt.map Prod.snd) ∧
    (∀ (T V : Str) (em : EntityMapping),
      alookup T em = none ∨ alookup T em = some [] →
      InstanceCounterAnonymizer.operate T V em =
        some (REPLACING_FORMAT T (natToChars 0),
          setType em T [(V, REPLACING_FORMAT T (natToChars 0))])) := by
  constructor
  · intro T V em mt M hT hne hV hlast
    refine ⟨by simp only [InstanceCounterAnonymizer.operate, hT, if_neg hne,
      hV, hlast], ?_⟩
    intro hmem
    rcases hmapM : (mt.map Prod.snd).mapM get_index with _ | L
    · rw [_get_last_index, hmapM] at hlast
      injection hlast
    · rcases hL : L with _ | ⟨i, is⟩
      · subst hL
        rcases hmt : mt.map Prod.snd with _ | ⟨w, ws⟩
        · exact hne (by simpa using hmt)
        · rw [hmt, List.mapM_cons] at hmapM
          rcases hw : get_index w with _ | iw
          · rw [hw] at hmapM
            exact absurd hmapM (by simp)
          · rw [hw] at hmapM
            rcases hws : ws.mapM get_index with _ | Ls
            · rw [hws] at hmapM
              exact absurd hmapM (by simp)
            · rw [hws] at hmapM
              injection hmapM with hcon
              exact absurd hcon (by simp)
      · subst hL
        rw [_get_last_index, hmapM] at hlast
        have hM : is.foldl max i = M := by
          injection hlast
        obtain ⟨c, hc, hcm⟩ := mapM_mem_some get_index (mt.map Prod.snd)
          (i :: is) hmapM _ hmem
        rw [get_index_fmtInt] at hc
        obtain rfl := Option.some_inj.mp hc
        have := le_foldl_max is i _ hcm
        rw [hM] at this
        omega
  · intro T V em h
    exact operate_fresh_type T V em h

/-- Witness for C4: a loaded mapping storing only `<T_5>` (a skipped index);
the fresh value gets index 6, and the new token is unused; a type with
nothing stored starts at index 0. -/
theorem c4_index_from_suffixes_witness :
    (alookup ['T'] [(['T'], [(['v'], ['<', 'T', '_', '5', '>'])])] =
        some [(['v'], ['<', 'T', '_', '5', '>'])] ∧
      ([(['v'], ['<', 'T', '_', '5', '>'])] : TypeMap) ≠ [] ∧
      alookup ['w'] [(['v'], ['<', 'T', '_', '5', '>'])] = none ∧
      _get_last_index [(['v'], ['<', 'T', '_', '5', '>'])] = some 5 ∧
      InstanceCounterAnonymizer.operate ['T'] ['w']
          [(['T'], [(['v'], ['<', 'T', '_', '5', '>'])])] =
        some (REPLACING_FORMAT ['T'] (intToChars (5 + 1)),
          setType [(['T'], [(['v'], ['<', 'T', '_', '5', '>'])])] ['T']
            ([(['v'], ['<', 'T', '_', '5', '>'])] ++
              [(['w'], REPLACING_FORMAT ['T'] (intToChars (5 + 1)))])) ∧
      REPLACING_FORMAT ['T'] (intToChars (5 + 1)) ∉
        [(['v'], ['<', 'T', '_', '5', '>'])].map Prod.snd) ∧
    (alookup ['U'] [(['T'], [(['v'], ['<', 'T', '_', '5', '>'])])] = none ∧
      InstanceCounterAnonymizer.operate ['U'] ['w']
          [(['T'], [(['v'], ['<', 'T', '_', '5', '>'])])] =
        some (REPLACING_FORMAT ['U'] (natToChars 0),
          setType [(['T'], [(['v'], ['<', 'T', '_', '5', '>'])])] ['U']
            [(['w'], REPLACING_FORMAT ['U'] (natToChars 0))])) := by
  have hlast : _get_last_index [(['v'], ['<', 'T', '_', '5', '>'])] =
      some 5 := by decide
  have hmain := c4_index_from_suffixes.1 ['T'] ['w']
    [(['T'], [(['v'], ['<', 'T', '_', '5', '>'])])]
    [(['v'], ['<', 'T', '_', '5', '>'])] 5 rfl (by decide) rfl hlast
  have hfresh := c4_index_from_suffixes.2 ['U'] ['w']
    [(['T'], [(['v'], ['<', 'T', '_', '5', '>'])])] (Or.inl rfl)
  exact ⟨⟨rfl, by decide, rfl, hlast, hmain.1, hmain.2⟩, ⟨rfl, hfresh⟩⟩

/-- Claim C7: every token produced by the assignment operator from a
well-formed mapping has the exact wire format `<ENTITY_TYPE_N>` with `N` a
non-negative decimal integer without leading zeros; the first index
assigned under a fresh (or empty) entity type is `0`; and the entity-type
names the pipeline requests are uppercase (with underscores). -/
theorem c7_token_wire_format :
    (∀ (T V : Str) (em : EntityMapping) (tok : Str) (em' : EntityMapping),
      mappingWF em →
      InstanceCounterAnonymizer.operate T V em = some (tok, em') →
      ∃ n : Nat, tok = REPLACING_FORMAT T (natToChars n) ∧
        (natToChars n = ['0'] ∨ (natToChars n).head? ≠ some '0')) ∧
    (∀ (T V : Str) (em : EntityMapping) (tok : Str) (em' : EntityMapping),
      alookup T em = none ∨ alookup T em = some [] →
      InstanceCounterAnonymizer.operate T V em = some (tok, em') →
      tok = REPLACING_FORMAT T (natToChars 0)) ∧
    (∀ T ∈ standard_entity_types, ∀ c ∈ T, c.isUpper = true ∨ c = '_') := by
  refine ⟨?_, ?_, by decide⟩
  · intro T V em tok em' hWF h
    obtain ⟨tok', em'', heq, -, -, -, -, hform, -⟩ := operate_spec T V em hWF
    rw [h, Option.some_inj, Prod.mk.injEq] at heq
    obtain ⟨rfl, -⟩ := heq
    obtain ⟨n, hn⟩ := hform
    exact ⟨n, hn, natToChars_no_leading_zero n⟩
  · intro T V em tok em' hfresh h
    rw [operate_fresh_type T V em hfresh, Option.some_inj, Prod.mk.injEq] at h
    exact h.1.symm

/-- Witness for C7: the first token assigned under type `A` from the empty
(well-formed) mapping. -/
theorem c7_token_wire_format_witness :
    mappingWF ([] : EntityMapping) ∧
    (∃ n : Nat, ['<', 'A', '_', '0', '>'] =
        REPLACING_FORMAT ['A'] (natToChars n) ∧
      (natToChars n = ['0'] ∨ (natToChars n).head? ≠ some '0')) ∧
    (['<', 'A', '_', '0', '>'] : Str) =
      REPLACING_FORMAT ['A'] (natToChars 0) ∧
    (∀ T ∈ standard_entity_types, ∀ c ∈ T, c.isUpper = true ∨ c = '_') := by
  have h1 : InstanceCounterAnonymizer.operate ['A'] ['x'] [] =
      some (['<', 'A', '_', '0', '>'],
        [(['A'], [(['x'], ['<', 'A', '_', '0', '>'])])]) := rfl
  exact ⟨mappingWF_nil,
    c7_token_wire_format.1 ['A'] ['x'] [] _ _ mappingWF_nil h1,
    c7_token_wire_format.2.1 ['A'] ['x'] [] _ _ (Or.inl rfl) h1,
    c7_token_wire_format.2.2⟩

/-- Claim C8: in every persisted snapshot produced by
`save_entity_mapping`, the `entities_above_threshold` metadata field equals
the length of the serialized `analyzed_entities` list, every serialized
entry has score at least the threshold, and `entities_above_threshold` is
at most `total_entities_detected`. -/
theorem c8_persisted_snapshot_invariants (mapping : EntityMapping)
    (analyzed_entities : List Span) (original_text : Str) (θ : ℚ) :
    (save_entity_mapping mapping analyzed_entities original_text
        θ).metadata.entities_above_threshold =
      (save_entity_mapping mapping analyzed_entities original_text
        θ).analyzed_entities.length ∧
    (∀ e ∈ (save_entity_mapping mapping analyzed_entities original_text
        θ).analyzed_entities, θ ≤ e.score) ∧
    (save_entity_mapping mapping analyzed_entities original_text
        θ).metadata.entities_above_threshold ≤
      (save_entity_mapping mapping analyzed_entities original_text
        θ).metadata.total_entities_detected := by
  rw [save_entity_mapping]
  split
  · next hcond =>
    refine ⟨by simp, ?_, ?_⟩
    · intro e he
      simp only [List.mem_map] at he
      obtain ⟨e₀, he₀, rfl⟩ := he
      have := List.mem_filter.mp he₀
      simpa using this.2
    · simp only [if_neg hcond.1]
      exact List.length_filter_le _ _
  · exact ⟨rfl, fun e he => absurd he (List.not_mem_nil e), Nat.zero_le _⟩

/-- Claim C3: starting from an empty mapping, after any sequence of
assignment calls interleaved across entity types, the tokens stored under
each entity type are pairwise distinct and their parsed numeric indices are
exactly `0 .. k-1` in insertion order — no gaps, no duplicates — where `k`,
the number of stored entries, equals the number of distinct original values
seen under that type. -/
theorem c3_uniqueness_no_gaps (calls : List (Str × Str)) :
    ∃ em, runCalls calls [] = some em ∧
      ∀ T : Str,
        (((alookup T em).getD []).map Prod.snd).Nodup ∧
        ((alookup T em).getD []).map (fun p => get_index p.2) =
          (List.range ((alookup T em).getD []).length).map
            (fun i : Nat => some (i : Int)) ∧
        ((alookup T em).getD []).length =
          ((calls.filter fun c => c.1 = T).map Prod.snd).dedup.length := by
  obtain ⟨em, hrun, hWF, hkeys⟩ := runCalls_spec calls [] mappingWF_nil
  refine ⟨em, hrun, ?_⟩
  intro T
  have hmemiff : ∀ v, v ∈ ((alookup T em).getD []).map Prod.fst ↔
      (T, v) ∈ calls := by
    intro v
    rw [hkeys T v]
    constructor
    · rintro (h | h)
      · exact absurd h (by simp [alookup])
      · exact h
    · exact Or.inr
  have hseen : ∀ v, v ∈ ((calls.filter fun c => c.1 = T).map Prod.snd) ↔
      (T, v) ∈ calls := by
    intro v
    constructor
    · intro h
      obtain ⟨c, hc, rfl⟩ := List.mem_map.mp h
      obtain ⟨hcc, hcp⟩ := List.mem_filter.mp hc
      have hc1 : c.1 = T := by simpa using hcp
      rw [show (T, c.2) = c from by rw [← hc1, Prod.mk.eta]]
      exact hcc
    · intro h
      exact List.mem_map.mpr ⟨(T, v), List.mem_filter.mpr ⟨h, by simp⟩, rfl⟩
  rcases hT : alookup T em with _ | mt
  · rw [hT] at hmemiff
    simp only [Option.getD_none, List.map_nil, List.not_mem_nil,
      false_iff] at hmemiff
    refine ⟨by simp, by simp, ?_⟩
    rcases hf : (calls.filter fun c => c.1 = T).map Prod.snd
        with _ | ⟨v, vs⟩
    · simp [hf]
    · exfalso
      have hv : v ∈ (calls.filter fun c => c.1 = T).map Prod.snd := by
        rw [hf]
        exact List.mem_cons_self _ _
      exact hmemiff v ((hseen v).mp hv)
  · rw [hT] at hmemiff
    simp only [Option.getD_some] at hmemiff
    have hWFT := (hWF.2 (T, mt) (alookup_mem hT)).2
    simp only [Option.getD_some]
    refine ⟨tokens_nodup T mt hWFT, ?_, ?_⟩
    · have hcomp : mt.map (fun p => get_index p.2) =
          (mt.map Prod.snd).map get_index := by
        rw [List.map_map]
        rfl
      rw [hcomp, hWFT.2, List.map_map]
      apply List.map_congr_left
      intro i _
      exact get_index_fmtNat T i
    · have hnd : (mt.map Prod.fst).Nodup := hWFT.1
      have hseenmem : ∀ v, v ∈ mt.map Prod.fst ↔
          v ∈ ((calls.filter fun c => c.1 = T).map Prod.snd).dedup := by
        intro v
        rw [List.mem_dedup, hseen v, ← hmemiff v]
      have hperm := (List.perm_ext_iff_of_nodup hnd
        (List.nodup_dedup _)).mpr hseenmem
      have hlen := hperm.length_eq
      rwa [List.length_map] at hlen

/-- Claim C1: anonymizing a document and then deanonymizing with the same
entity mapping reproduces the original text exactly (in whichever of the
two result shapes the empty-mapping check yields), and every detected span
with score below the threshold — lying inside the document and disjoint
from the spans that survive filtering — keeps its original text verbatim in
the anonymized output; the restored output equals the original document, so
such spans are unaltered through both passes. -/
theorem c1_round_trip (text : Str) (detected : List Span) (θ : ℚ)
    (hok : spansOK 0 (detected.filter fun s => θ ≤ s.score)) :
    ∃ res em,
      anonymize_ticket text detected θ = some (res, em, detected) ∧
      (deanonymize_ticket res em = .ok (.plainText text) ∨
        deanonymize_ticket res em = .ok (.engineResult ⟨text⟩)) ∧
      ∀ b ∈ detected, b.score < θ → b.start ≤ b.stop →
        b.stop ≤ text.length →
        (∀ s ∈ detected.filter fun s => θ ≤ s.score,
          b.stop ≤ s.start ∨ s.stop ≤ b.start) →
        ∃ q, extract res.text q (q + (b.stop - b.start)) =
          extract text b.start b.stop := by
  obtain ⟨out, items, em, hanon, hWF, -, hdeanon⟩ :=
    anonymize_roundTrip (detected.filter fun s => θ ≤ s.score) text 0 []
      mappingWF_nil hok
  have hout : deanonFrom out 0 items em = .ok text := by
    have h := hdeanon em (mapLE_refl em)
    rwa [List.drop_zero] at h
  refine ⟨⟨out, items⟩, em, ?_, ?_, ?_⟩
  · simp only [anonymize_ticket, hanon]
  · by_cases hem : em = []
    · left
      subst hem
      rw [deanonymize_ticket, if_pos rfl]
      rcases items with _ | ⟨it, irest⟩
      · rw [deanonFrom, List.drop_zero] at hout
        injection hout with h
        rw [h]
      · rw [deanonFrom] at hout
        simp only [InstanceCounterDeanonymizer.operate, alookup] at hout
        injection hout
    · right
      rw [deanonymize_ticket, if_neg hem]
      simp only [hout]
  · intro b hb hscore hbs hstop hdisj
    exact gap_preserved _ text 0 [] out items em hok hanon b.start b.stop
      (Nat.zero_le _) hbs hstop hdisj

/-- Witness for C1: the example document `"ab cd"` with one span above and
one span below the threshold. -/
theorem c1_round_trip_witness :
    spansOK 0 (exSpans.filter fun s => (1 : ℚ) ≤ s.score) ∧
    ∃ res em,
      anonymize_ticket exText exSpans 1 = some (res, em, exSpans) ∧
      (deanonymize_ticket res em = .ok (.plainText exText) ∨
        deanonymize_ticket res em = .ok (.engineResult ⟨exText⟩)) ∧
      ∀ b ∈ exSpans, b.score < 1 → b.start ≤ b.stop →
        b.stop ≤ exText.length →
        (∀ s ∈ exSpans.filter fun s => (1 : ℚ) ≤ s.score,
          b.stop ≤ s.start ∨ s.stop ≤ b.start) →
        ∃ q, extract res.text q (q + (b.stop - b.start)) =
          extract exText b.start b.stop := by
  have hok : spansOK 0 (exSpans.filter fun s => (1 : ℚ) ≤ s.score) :=
    ⟨by decide, by decide, trivial⟩
  exact ⟨hok, c1_round_trip exText exSpans 1 hok⟩
